import Mathlib

/-!
Verification of the conversation-memory core of the `ai_chat_bot` repository
(`chat_memory.py`): the `ChatMemory` bounded FIFO conversation buffer and the
`ContextManager` keyword tracker.  The Python code is shallowly embedded:
Python `str.split()` / `str.join` / `str.strip(chars)` / list slicing and
`collections.deque(maxlen=...)` are modelled by executable Lean functions on
`List`/`String`, and each public method of the two classes becomes a pure
Lean function on an explicit state record.
-/

set_option autoImplicit false
set_option maxRecDepth 100000

namespace AiChatBot

/-! ### Python primitives -/

/-- One maximal run of non-whitespace characters at a time, accumulating the
current word in reverse; models CPython `str.split()` (no separator argument):
runs of whitespace separate words and empty words are never produced. -/
def splitWSAux : List Char → List Char → List (List Char)
  | [], cur => if cur.isEmpty then [] else [cur.reverse]
  | c :: cs, cur =>
    if c.isWhitespace then
      if cur.isEmpty then splitWSAux cs [] else cur.reverse :: splitWSAux cs []
    else splitWSAux cs (c :: cur)

/-- Python `message.split()`: whitespace-delimited words, empties discarded. -/
def pySplit (s : String) : List String :=
  (splitWSAux s.toList []).map String.mk

/-- Python `text.lower()` (ASCII case mapping, which covers every character
the stop-word filter distinguishes). -/
def pyLower (s : String) : String := String.mk (s.toList.map Char.toLower)

/-- Python `sep.join(parts)`. -/
def pyJoin (sep : String) : List String → String
  | [] => ""
  | [x] => x
  | x :: xs => x ++ sep ++ pyJoin sep xs

/-- The punctuation characters of `word.strip('.,!?;:"()[]')` in
`ContextManager._extract_keywords`. -/
def isStripPunct (c : Char) : Bool :=
  c == '.' || c == ',' || c == '!' || c == '?' || c == ';' || c == ':' ||
  c == '"' || c == '(' || c == ')' || c == '[' || c == ']'

/-- Python `word.strip('.,!?;:"()[]')`: removes those characters from both
ends of the string. -/
def pyStrip (s : String) : String :=
  String.mk (((s.toList.dropWhile isStripPunct).reverse.dropWhile isStripPunct).reverse)

/-- Keep the last `n` elements of a list, in order.  This is both the effect
of appending to a full `collections.deque(maxlen=n)` and Python `l[-n:]` for
`n > 0`. -/
def listTakeRight {α : Type} (n : Nat) (l : List α) : List α :=
  (l.reverse.take n).reverse

/-- Appending one element to a `collections.deque(maxlen=cap)`: the new
element goes to the right and, if the deque would exceed `cap`, the leftmost
element is discarded (`cap = 0` keeps the deque empty, as in CPython). -/
def dequeAppend {α : Type} (cap : Nat) (buf : List α) (x : α) : List α :=
  listTakeRight cap (buf ++ [x])

/-- Python `l[-n:]` for an arbitrary integer `n`.  For `n > 0` this is the
last `n` elements (clamped); for `n = 0` the slice start is `-0 = 0`, so the
WHOLE list is returned; for `n < 0` the start is the positive index `-n`,
clamped to the length. -/
def pySliceLast {α : Type} (n : Int) (l : List α) : List α :=
  if 0 < n then l.drop ((l.length : Int) - n).toNat
  else l.drop (min (-n).toNat l.length)

/-! ### Data model

A stored turn (`ChatMemory.add_turn` builds the dict
`{'turn_id': …, 'user': …, 'bot': …, 'timestamp': …}`).  Records reaching the
buffer through `import_conversation` are appended as-is and are only
guaranteed to carry the `'user'` and `'bot'` keys, so `turn_id` and
`timestamp` are optional here while the two text fields are present in every
buffered record. -/
structure Turn where
  turn_id : Option Nat
  user : String
  bot : String
  timestamp : Option String
deriving Repr, DecidableEq

/-- A raw record handed to `import_conversation`: a dict in which any of the
known keys may be absent (`none` models a missing key). -/
structure TurnRec where
  user : Option String := none
  bot : Option String := none
  turn_id : Option Nat := none
  timestamp : Option String := none
deriving Repr, DecidableEq

/-- The view of a buffered turn as an exported dict (`export_conversation`
returns the stored dicts themselves). -/
def Turn.toRec (t : Turn) : TurnRec :=
  { user := some t.user, bot := some t.bot, turn_id := t.turn_id,
    timestamp := t.timestamp }

/-- A record is stored by `import_conversation` iff both text keys are
present (`'user' in turn and 'bot' in turn`). -/
def TurnRec.toTurn (r : TurnRec) : Option Turn :=
  match r.user, r.bot with
  | some u, some b => some ⟨r.turn_id, u, b, r.timestamp⟩
  | _, _ => none

/-- `ChatMemory` state: `conversation_buffer` is a
`deque(maxlen=window_size)` held oldest-first, `total_turns` the monotone
turn counter. -/
structure ChatMemory where
  window_size : Nat
  max_tokens_per_turn : Nat
  conversation_buffer : List Turn
  total_turns : Nat
deriving Repr, DecidableEq

/-- `ChatMemory.__init__(window_size=5, max_tokens_per_turn=100)`. -/
def mkChatMemory (window_size : Nat := 5) (max_tokens : Nat := 100) : ChatMemory :=
  { window_size := window_size, max_tokens_per_turn := max_tokens,
    conversation_buffer := [], total_turns := 0 }

/-! ### ChatMemory methods -/

/-- `ChatMemory._truncate_message`: if the whitespace word count exceeds
`max_tokens_per_turn`, keep the first `max_tokens_per_turn` words rejoined
with single spaces and append `"..."`; otherwise return the message
unchanged. -/
def truncate_message (max_tokens_per_turn : Nat) (message : String) : String :=
  let words := pySplit message
  if words.length > max_tokens_per_turn then
    pyJoin " " (words.take max_tokens_per_turn) ++ "..."
  else message

/-- `ChatMemory.add_turn`.  `ts` stands for the wall-clock string produced by
`_get_timestamp()` (`datetime.now()`), which is an input of the step here. -/
def add_turn (mem : ChatMemory) (user_input bot_response ts : String) : ChatMemory :=
  let u := truncate_message mem.max_tokens_per_turn user_input
  let b := truncate_message mem.max_tokens_per_turn bot_response
  let turn : Turn := ⟨some (mem.total_turns + 1), u, b, some ts⟩
  { mem with
    conversation_buffer := dequeAppend mem.window_size mem.conversation_buffer turn,
    total_turns := mem.total_turns + 1 }

/-- `ChatMemory.get_context_prompt`. -/
def get_context_prompt (mem : ChatMemory) (current_input : String) : String :=
  if mem.conversation_buffer.isEmpty then
    "Human: " ++ current_input ++ "\nAssistant:"
  else
    let context_parts :=
      mem.conversation_buffer.flatMap
        (fun turn => ["Human: " ++ turn.user, "Assistant: " ++ turn.bot])
    pyJoin "\n" (context_parts ++ ["Human: " ++ current_input, "Assistant:"])

/-- `ChatMemory.get_recent_context(num_turns=None)`: `num_turns` defaults to
the buffer length, and the result is `list(buffer)[-num_turns:]` with Python
slice semantics. -/
def get_recent_context (mem : ChatMemory) (num_turns : Option Int := none) : List Turn :=
  let n : Int := match num_turns with
    | none => (mem.conversation_buffer.length : Int)
    | some k => k
  pySliceLast n mem.conversation_buffer

/-- `ChatMemory.clear_memory`. -/
def clear_memory (mem : ChatMemory) : ChatMemory :=
  { mem with conversation_buffer := [], total_turns := 0 }

/-- `ChatMemory.export_conversation`: the buffered dicts, oldest-first. -/
def export_conversation (mem : ChatMemory) : List TurnRec :=
  mem.conversation_buffer.map Turn.toRec

/-- The loop body of `ChatMemory.import_conversation`: a record with both
text keys is appended to the deque as-is (fields untouched) and counted in
`total_turns`; any other record is skipped. -/
def importStep (acc : ChatMemory) (r : TurnRec) : ChatMemory :=
  match r.toTurn with
  | some t =>
    { acc with
      conversation_buffer := dequeAppend acc.window_size acc.conversation_buffer t,
      total_turns := acc.total_turns + 1 }
  | none => acc

/-- `ChatMemory.import_conversation`: clear, then walk
`conversation_data[-window_size:]` (Python slice semantics) applying
`importStep` to each record. -/
def import_conversation (mem : ChatMemory) (data : List TurnRec) : ChatMemory :=
  (pySliceLast (mem.window_size : Int) data).foldl importStep (clear_memory mem)

/-! ### ContextManager -/

/-- The stop-word set of `ContextManager._extract_keywords`. -/
def stop_words : List String :=
  ["the", "a", "an", "and", "or", "but", "in", "on", "at", "to", "for", "of",
   "with", "by", "is", "are", "was", "were", "be", "been", "being", "have",
   "has", "had", "do", "does", "did", "will", "would", "could", "should"]

/-- `ContextManager._extract_keywords`: lowercase, split on whitespace, keep
the raw words longer than 3 characters that are not raw stop words, strip the
punctuation characters from each SURVIVOR, and take the first 5. Note the
filter looks at the word BEFORE stripping. -/
def extract_keywords (text : String) : List String :=
  let words := pySplit (pyLower text)
  let keywords :=
    (words.filter (fun word => word.length > 3 && !(stop_words.contains word))).map pyStrip
  keywords.take 5

/-- `ContextManager` state.  `topic_keywords` is a Python `set` modelled as a
duplicate-free list in insertion order; CPython set iteration order is
hash-based and unspecified, so any property reading an ORDER off this list
(rather than mere membership or size) is outside what the source code
determines. -/
structure ContextManager where
  memory : ChatMemory
  current_topic : Option String := none
  topic_keywords : List String := []
deriving Repr, DecidableEq

/-- `ContextManager.__init__`. -/
def mkContextManager (memory : ChatMemory) : ContextManager :=
  { memory := memory }

/-- Python `set.update(iterable)` on the list model: append each element not
already present, keeping insertion order; duplicates are no-ops. -/
def setUpdate (s : List String) (new : List String) : List String :=
  new.foldl (fun acc w => if acc.contains w then acc else acc ++ [w]) s

/-- `ContextManager.update_topic_context`: extract keywords from
`user_input + " " + bot_response`, merge into the set, and when the set's
size exceeds 20 replace it by the last 15 elements of `list(set)` (in the
list model: the 15 most recently inserted). -/
def update_topic_context (cm : ContextManager) (user_input bot_response : String) :
    ContextManager :=
  let keywords := extract_keywords (user_input ++ " " ++ bot_response)
  let tk := setUpdate cm.topic_keywords keywords
  let tk := if tk.length > 20 then listTakeRight 15 tk else tk
  { cm with topic_keywords := tk }

/-- The keyword pipeline as claim C7 words it (the spec's reading): strip the
punctuation from each token FIRST, then discard stripped tokens of length
≤ 3 or in the stop list, then take the first 5.  Stated only to be compared
with `extract_keywords`, which is the source's order of operations. -/
def claimedExtract (text : String) : List String :=
  let words := pySplit (pyLower text)
  let keywords :=
    (words.map pyStrip).filter (fun word => word.length > 3 && !(stop_words.contains word))
  keywords.take 5

/-- Run a whole session: one `add_turn` per `(user_input, bot_response,
timestamp)` triple, in order. -/
def addTurns (mem : ChatMemory) (inputs : List (String × String × String)) : ChatMemory :=
  inputs.foldl (fun m i => add_turn m i.1 i.2.1 i.2.2) mem

/-- The full (eviction-free) history of turns an `add_turn` session would
create, with `turn_id`s continuing from `start`. -/
def turnsFrom (limit : Nat) : Nat → List (String × String × String) → List Turn
  | _, [] => []
  | start, (u, b, ts) :: rest =>
    ⟨some (start + 1), truncate_message limit u, truncate_message limit b, some ts⟩ ::
      turnsFrom limit (start + 1) rest

/-- The character stream of a word list in which every word is preceded by
one space: the tail shape of a single-space join. -/
def spaced : List (List Char) → List Char
  | [] => []
  | w :: ws => ' ' :: (w ++ spaced ws)

/-- A word as produced by `str.split()`: non-empty and free of whitespace. -/
def wordlike (w : List Char) : Prop :=
  w ≠ [] ∧ ∀ c ∈ w, c.isWhitespace = false

/-- Eight well-formed records, the spec's capacity-5 import example. -/
def sampleRecords8 : List TurnRec :=
  [{ user := some "u1", bot := some "b1" }, { user := some "u2", bot := some "b2" },
   { user := some "u3", bot := some "b3" }, { user := some "u4", bot := some "b4" },
   { user := some "u5", bot := some "b5" }, { user := some "u6", bot := some "b6" },
   { user := some "u7", bot := some "b7" }, { user := some "u8", bot := some "b8" }]

/-! ### Elementary facts about the list primitives -/

theorem listTakeRight_length {α : Type} (n : Nat) (l : List α) :
    (listTakeRight n l).length = min n l.length := by
  simp [listTakeRight]

theorem listTakeRight_of_length_le {α : Type} {n : Nat} {l : List α}
    (h : l.length ≤ n) : listTakeRight n l = l := by
  rw [listTakeRight, List.take_of_length_le (by simpa using h), List.reverse_reverse]

theorem listTakeRight_eq_drop {α : Type} (n : Nat) (l : List α) :
    listTakeRight n l = l.drop (l.length - n) := by
  rw [listTakeRight, List.reverse_take, List.length_reverse, List.reverse_reverse]

/-- Keeping the last `n` of a list whose left part was already cut to its
last `n` elements gives the same result as cutting the whole list: eviction
can be performed eagerly at every append. -/
theorem listTakeRight_listTakeRight_append {α : Type} (n : Nat) (x y : List α) :
    listTakeRight n (listTakeRight n x ++ y) = listTakeRight n (x ++ y) := by
  unfold listTakeRight
  rw [List.reverse_append, List.reverse_append, List.reverse_reverse]
  rw [List.take_append_eq_append_take, List.take_append_eq_append_take, List.take_take]
  rw [Nat.min_eq_left (Nat.sub_le _ _)]

theorem pySliceLast_coe_nat {α : Type} {n : Nat} (hn : 0 < n) (l : List α) :
    pySliceLast (n : Int) l = listTakeRight n l := by
  rw [listTakeRight_eq_drop, pySliceLast, if_pos (by exact_mod_cast hn)]
  rw [Int.toNat_sub l.length n]

theorem pySliceLast_length_self {α : Type} (l : List α) :
    pySliceLast (l.length : Int) l = l := by
  rcases Nat.eq_zero_or_pos l.length with h | h
  · rw [List.eq_nil_of_length_eq_zero h]; rfl
  · rw [pySliceLast_coe_nat h l]
    exact listTakeRight_of_length_le (Nat.le_refl _)

/-! ### Iterated `add_turn` -/

theorem turnsFrom_length (limit : Nat) :
    ∀ (start : Nat) (inputs : List (String × String × String)),
      (turnsFrom limit start inputs).length = inputs.length := by
  intro start inputs
  induction inputs generalizing start with
  | nil => rfl
  | cons i rest ih => simp [turnsFrom, ih]

theorem add_turn_window_size (mem : ChatMemory) (u b ts : String) :
    (add_turn mem u b ts).window_size = mem.window_size := rfl

theorem add_turn_max_tokens (mem : ChatMemory) (u b ts : String) :
    (add_turn mem u b ts).max_tokens_per_turn = mem.max_tokens_per_turn := rfl

theorem add_turn_total_turns (mem : ChatMemory) (u b ts : String) :
    (add_turn mem u b ts).total_turns = mem.total_turns + 1 := rfl

theorem add_turn_buffer (mem : ChatMemory) (u b ts : String) :
    (add_turn mem u b ts).conversation_buffer =
      dequeAppend mem.window_size mem.conversation_buffer
        ⟨some (mem.total_turns + 1), truncate_message mem.max_tokens_per_turn u,
         truncate_message mem.max_tokens_per_turn b, some ts⟩ := rfl

/-- Closed form of a whole `add_turn` session from any state whose buffer
respects the deque capacity: the configuration fields are untouched,
`total_turns` counts every call, and the buffer is the capacity-suffix of the
old buffer extended by the full new history. -/
theorem addTurns_spec (inputs : List (String × String × String)) :
    ∀ (mem : ChatMemory), mem.conversation_buffer.length ≤ mem.window_size →
      (addTurns mem inputs).window_size = mem.window_size ∧
      (addTurns mem inputs).max_tokens_per_turn = mem.max_tokens_per_turn ∧
      (addTurns mem inputs).total_turns = mem.total_turns + inputs.length ∧
      (addTurns mem inputs).conversation_buffer =
        listTakeRight mem.window_size
          (mem.conversation_buffer ++
            turnsFrom mem.max_tokens_per_turn mem.total_turns inputs) := by
  induction inputs with
  | nil =>
    intro mem h
    refine ⟨rfl, rfl, rfl, ?_⟩
    show mem.conversation_buffer = _
    rw [turnsFrom, List.append_nil]
    exact (listTakeRight_of_length_le h).symm
  | cons i rest ih =>
    intro mem h
    have hstep : addTurns mem (i :: rest) = addTurns (add_turn mem i.1 i.2.1 i.2.2) rest := rfl
    have hlen : (add_turn mem i.1 i.2.1 i.2.2).conversation_buffer.length ≤
        (add_turn mem i.1 i.2.1 i.2.2).window_size := by
      rw [add_turn_buffer, add_turn_window_size, dequeAppend, listTakeRight_length]
      exact Nat.min_le_left _ _
    obtain ⟨hw, hm, ht, hb⟩ := ih (add_turn mem i.1 i.2.1 i.2.2) hlen
    rw [hstep]
    rw [add_turn_window_size] at hw
    rw [add_turn_max_tokens] at hm
    refine ⟨hw, hm, ?_, ?_⟩
    · rw [ht, add_turn_total_turns, List.length_cons]; omega
    · rw [hb, add_turn_buffer, add_turn_window_size, add_turn_max_tokens,
        add_turn_total_turns, dequeAppend, listTakeRight_listTakeRight_append,
        List.append_assoc]
      obtain ⟨u, bt⟩ := i
      obtain ⟨b, ts⟩ := bt
      rfl

/-! ### The import fold -/

/-- Closed form of the `import_conversation` loop from any state whose
buffer respects the deque capacity: records without both text keys are
dropped, the rest are appended (with eager eviction) and each appended
record bumps `total_turns`. -/
theorem foldl_importStep_spec (l : List TurnRec) :
    ∀ (acc : ChatMemory), acc.conversation_buffer.length ≤ acc.window_size →
      (l.foldl importStep acc).window_size = acc.window_size ∧
      (l.foldl importStep acc).total_turns =
        acc.total_turns + (l.filterMap TurnRec.toTurn).length ∧
      (l.foldl importStep acc).conversation_buffer =
        listTakeRight acc.window_size
          (acc.conversation_buffer ++ l.filterMap TurnRec.toTurn) := by
  induction l with
  | nil =>
    intro acc h
    exact ⟨rfl, rfl, by simp [listTakeRight_of_length_le h]⟩
  | cons r rest ih =>
    intro acc h
    cases hr : r.toTurn with
    | none =>
      have hs : importStep acc r = acc := by unfold importStep; rw [hr]
      rw [List.foldl_cons, hs]
      simpa [List.filterMap_cons, hr] using ih acc h
    | some t =>
      have hs : importStep acc r =
          { acc with
            conversation_buffer := dequeAppend acc.window_size acc.conversation_buffer t,
            total_turns := acc.total_turns + 1 } := by
        unfold importStep; rw [hr]
      rw [List.foldl_cons, hs]
      have hlen : ({ acc with
            conversation_buffer := dequeAppend acc.window_size acc.conversation_buffer t,
            total_turns := acc.total_turns + 1 } : ChatMemory).conversation_buffer.length ≤
          ({ acc with
            conversation_buffer := dequeAppend acc.window_size acc.conversation_buffer t,
            total_turns := acc.total_turns + 1 } : ChatMemory).window_size := by
        show (dequeAppend acc.window_size acc.conversation_buffer t).length ≤ acc.window_size
        rw [dequeAppend, listTakeRight_length]
        exact Nat.min_le_left _ _
      obtain ⟨hw, ht, hb⟩ := ih _ hlen
      refine ⟨hw, ?_, ?_⟩
      · rw [ht]
        simp only [List.filterMap_cons, hr, List.length_cons]
        omega
      · rw [hb]
        show listTakeRight acc.window_size _ = _
        rw [dequeAppend, listTakeRight_listTakeRight_append, List.append_assoc]
        simp [List.filterMap_cons, hr]

/-! ### `pyJoin` agrees with the library `String.intercalate` -/

theorem intercalate_go_eq_pyJoin (sep : String) :
    ∀ (as : List String) (acc : String),
      String.intercalate.go acc sep as = pyJoin sep (acc :: as) := by
  intro as
  induction as with
  | nil => intro acc; rfl
  | cons a rest ih =>
    intro acc
    rw [show String.intercalate.go acc sep (a :: rest) =
          String.intercalate.go (acc ++ sep ++ a) sep rest from rfl, ih]
    cases rest with
    | nil => simp [pyJoin]
    | cons c cs => simp [pyJoin, String.append_assoc]

theorem pyJoin_eq_intercalate (sep : String) (l : List String) :
    pyJoin sep l = String.intercalate sep l := by
  cases l with
  | nil => rfl
  | cons a as =>
    rw [show String.intercalate sep (a :: as) = String.intercalate.go a sep as from rfl,
      intercalate_go_eq_pyJoin]

/-! ### Claim theorems -/

/-- C1: after `N` `add_turn` calls on a fresh `ChatMemory` (no `clear`, no
import), the buffer length is `min N capacity`, the buffer holds exactly the
most recent `min N capacity` turns of the full history oldest-first
(`turn_id`s 1..N, texts truncated), and `total_turns` is `N` regardless of
eviction. -/
theorem C1_bounded_fifo_invariants (cap limit : Nat)
    (inputs : List (String × String × String)) :
    (addTurns (mkChatMemory cap limit) inputs).total_turns = inputs.length ∧
    (addTurns (mkChatMemory cap limit) inputs).conversation_buffer.length =
      min inputs.length cap ∧
    (addTurns (mkChatMemory cap limit) inputs).conversation_buffer =
      listTakeRight cap (turnsFrom limit 0 inputs) := by
  obtain ⟨hw, hm, ht, hb⟩ :=
    addTurns_spec inputs (mkChatMemory cap limit) (Nat.zero_le _)
  have hb' : (addTurns (mkChatMemory cap limit) inputs).conversation_buffer =
      listTakeRight cap (turnsFrom limit 0 inputs) := by
    simpa [mkChatMemory] using hb
  refine ⟨by simpa [mkChatMemory] using ht, ?_, hb'⟩
  rw [hb', listTakeRight_length, turnsFrom_length, Nat.min_comm]

/-- C2: `get_context_prompt` returns the newline-join of one
`"Human: <user>"` and one `"Assistant: <bot>"` line per retained turn
(oldest first), then `"Human: <current_input>"` and a bare `"Assistant:"`
cue; on an empty buffer with input `"Hi"` it is exactly
`"Human: Hi\nAssistant:"`. -/
theorem C2_prompt_rendering :
    (∀ (mem : ChatMemory) (current_input : String),
      get_context_prompt mem current_input =
        String.intercalate "\n"
          ((mem.conversation_buffer.flatMap
              (fun turn => ["Human: " ++ turn.user, "Assistant: " ++ turn.bot])) ++
            ["Human: " ++ current_input, "Assistant:"])) ∧
    get_context_prompt (mkChatMemory 5 100) "Hi" = "Human: Hi\nAssistant:" := by
  constructor
  · intro mem current_input
    rw [← pyJoin_eq_intercalate]
    cases hb : mem.conversation_buffer with
    | nil =>
      simp only [get_context_prompt, hb, List.isEmpty_nil, if_pos, List.flatMap_nil,
        List.nil_append]
      have h2 : ("\n" : String) ++ "Assistant:" = "\nAssistant:" := rfl
      simp [pyJoin, String.append_assoc, h2]
    | cons t rest =>
      simp only [get_context_prompt, hb]
      rfl
  · rfl

theorem pySliceLast_nil {α : Type} (n : Int) : pySliceLast n ([] : List α) = [] := by
  unfold pySliceLast
  split <;> simp

/-- Exported turns survive the import well-formedness check unchanged. -/
theorem filterMap_toTurn_map_toRec (l : List Turn) :
    (l.map Turn.toRec).filterMap TurnRec.toTurn = l := by
  induction l with
  | nil => rfl
  | cons t ts ih => simp [Turn.toRec, TurnRec.toTurn, ih]

/-- C3 counterexample: importing a single record that carries `turn_id = 42`
stores that record with its ORIGINAL `turn_id` — the code does not assign
fresh sequence numbers 1..k on import. -/
theorem C3_counterexample_no_renumbering :
    (import_conversation (mkChatMemory 5 100)
        [{ user := some "u", bot := some "b", turn_id := some 42 }]).conversation_buffer =
      [⟨some 42, "u", "b", none⟩] ∧
    (some 42 : Option Nat) ≠ some 1 := by
  exact ⟨by decide, by decide⟩

/-- C3 (amended): for a buffer of capacity ≥ 1, `import_conversation` clears
the buffer, keeps only the last `capacity` records, skips any of those
missing either text field, appends the surviving `k` records AS-IS in their
original relative order (retaining whatever `turn_id`/`timestamp` fields
they carried, with no renumbering), and leaves `total_turns` equal to
`k`. -/
theorem C3_import_semantics (mem : ChatMemory) (data : List TurnRec)
    (hcap : 1 ≤ mem.window_size) :
    (import_conversation mem data).conversation_buffer =
      (listTakeRight mem.window_size data).filterMap TurnRec.toTurn ∧
    (import_conversation mem data).total_turns =
      ((listTakeRight mem.window_size data).filterMap TurnRec.toTurn).length := by
  have hslice : pySliceLast (mem.window_size : Int) data =
      listTakeRight mem.window_size data := pySliceLast_coe_nat hcap data
  have h0 : (clear_memory mem).conversation_buffer.length ≤
      (clear_memory mem).window_size := Nat.zero_le _
  obtain ⟨hw, ht, hb⟩ :=
    foldl_importStep_spec (pySliceLast (mem.window_size : Int) data) (clear_memory mem) h0
  constructor
  · show (_ : ChatMemory).conversation_buffer = _
    rw [show (import_conversation mem data).conversation_buffer =
        ((pySliceLast (mem.window_size : Int) data).foldl importStep
          (clear_memory mem)).conversation_buffer from rfl, hb, hslice]
    show listTakeRight mem.window_size ([] ++ _) = _
    rw [List.nil_append]
    apply listTakeRight_of_length_le
    calc ((listTakeRight mem.window_size data).filterMap TurnRec.toTurn).length
        ≤ (listTakeRight mem.window_size data).length :=
          List.length_filterMap_le _ _
      _ ≤ mem.window_size := by rw [listTakeRight_length]; exact Nat.min_le_left _ _
  · rw [show (import_conversation mem data).total_turns =
        ((pySliceLast (mem.window_size : Int) data).foldl importStep
          (clear_memory mem)).total_turns from rfl, ht, hslice]
    exact Nat.zero_add _

/-- C6: re-importing the exported snapshot of any reachable state (one whose
buffer respects the capacity) leaves the buffer exactly unchanged — texts,
length, and even the original `turn_id`s and timestamps. -/
theorem C6_export_import_roundtrip (mem : ChatMemory)
    (h : mem.conversation_buffer.length ≤ mem.window_size) :
    (import_conversation mem (export_conversation mem)).conversation_buffer =
      mem.conversation_buffer := by
  rcases Nat.eq_zero_or_pos mem.window_size with hc | hc
  · have hbuf : mem.conversation_buffer = [] :=
      List.eq_nil_of_length_eq_zero (Nat.le_zero.mp (hc ▸ h))
    show ((pySliceLast (mem.window_size : Int) (export_conversation mem)).foldl
        importStep (clear_memory mem)).conversation_buffer = _
    rw [show export_conversation mem = mem.conversation_buffer.map Turn.toRec from rfl,
      hbuf, List.map_nil, pySliceLast_nil, List.foldl_nil]
    rfl
  · have hexport : (export_conversation mem).length ≤ mem.window_size := by
      rw [show export_conversation mem = mem.conversation_buffer.map Turn.toRec from rfl,
        List.length_map]
      exact h
    have hslice : pySliceLast (mem.window_size : Int) (export_conversation mem) =
        export_conversation mem := by
      rw [pySliceLast_coe_nat hc, listTakeRight_of_length_le hexport]
    obtain ⟨hw, ht, hb⟩ :=
      foldl_importStep_spec (pySliceLast (mem.window_size : Int) (export_conversation mem))
        (clear_memory mem) (Nat.zero_le _)
    show ((pySliceLast (mem.window_size : Int) (export_conversation mem)).foldl
        importStep (clear_memory mem)).conversation_buffer = _
    rw [hb, hslice]
    show listTakeRight mem.window_size
        ([] ++ (mem.conversation_buffer.map Turn.toRec).filterMap TurnRec.toTurn) = _
    rw [List.nil_append, filterMap_toTurn_map_toRec]
    exact listTakeRight_of_length_le h

/-- C6 witness: a concrete reachable two-turn state round-trips through
export/import unchanged. -/
theorem C6_export_import_roundtrip_witness :
    (addTurns (mkChatMemory 5 100) [("a", "b", "t1"), ("c", "d", "t2")]).conversation_buffer.length ≤
      (addTurns (mkChatMemory 5 100) [("a", "b", "t1"), ("c", "d", "t2")]).window_size ∧
    (import_conversation (addTurns (mkChatMemory 5 100) [("a", "b", "t1"), ("c", "d", "t2")])
        (export_conversation (addTurns (mkChatMemory 5 100) [("a", "b", "t1"), ("c", "d", "t2")]))).conversation_buffer =
      (addTurns (mkChatMemory 5 100) [("a", "b", "t1"), ("c", "d", "t2")]).conversation_buffer :=
  ⟨by decide,
    C6_export_import_roundtrip
      (addTurns (mkChatMemory 5 100) [("a", "b", "t1"), ("c", "d", "t2")]) (by decide)⟩

/-- C9: `import_conversation` is a total function for EVERY record list —
the loop only tests key presence, so there is no exception path — and its
result is exactly: the well-formed records among the sliced input, in
order (malformed ones skipped), each counted once in `total_turns`. -/
theorem C9_import_never_fails (mem : ChatMemory) (data : List TurnRec) :
    (import_conversation mem data).conversation_buffer =
      listTakeRight mem.window_size
        ((pySliceLast (mem.window_size : Int) data).filterMap TurnRec.toTurn) ∧
    (import_conversation mem data).total_turns =
      ((pySliceLast (mem.window_size : Int) data).filterMap TurnRec.toTurn).length := by
  obtain ⟨hw, ht, hb⟩ :=
    foldl_importStep_spec (pySliceLast (mem.window_size : Int) data) (clear_memory mem)
      (Nat.zero_le _)
  constructor
  · show ((pySliceLast (mem.window_size : Int) data).foldl importStep
        (clear_memory mem)).conversation_buffer = _
    rw [hb]
    rfl
  · show ((pySliceLast (mem.window_size : Int) data).foldl importStep
        (clear_memory mem)).total_turns = _
    rw [ht]
    exact Nat.zero_add _

/-- C3 witness: the spec's own example — 8 well-formed records imported into
a capacity-5 buffer keep the last 5 in order with `total_turns = 5`. -/
theorem C3_import_semantics_witness :
    1 ≤ (mkChatMemory 5 100).window_size ∧
    ((import_conversation (mkChatMemory 5 100) sampleRecords8).conversation_buffer =
        (listTakeRight (mkChatMemory 5 100).window_size sampleRecords8).filterMap
          TurnRec.toTurn ∧
      (import_conversation (mkChatMemory 5 100) sampleRecords8).total_turns =
        ((listTakeRight (mkChatMemory 5 100).window_size sampleRecords8).filterMap
          TurnRec.toTurn).length) :=
  ⟨by decide, C3_import_semantics (mkChatMemory 5 100) sampleRecords8 (by decide)⟩

/-- C5 counterexample: on a one-turn buffer, `get_recent_context` with
`num_turns = 0` returns the WHOLE buffer (Python `l[-0:]` is `l[0:]`), not
the last 0 turns, refuting the claim for the integer `n = 0`. -/
theorem C5_counterexample_recent_zero :
    get_recent_context (add_turn (mkChatMemory 5 100) "a" "b" "t") (some 0) =
      (add_turn (mkChatMemory 5 100) "a" "b" "t").conversation_buffer ∧
    get_recent_context (add_turn (mkChatMemory 5 100) "a" "b" "t") (some 0) ≠ [] := by
  exact ⟨by decide, by decide⟩

/-- C5 (amended): for every POSITIVE integer `n`, `get_recent_context`
returns the last `n` retained turns in storage order (all of them when `n`
exceeds the current length), and with `num_turns` omitted it returns the
full retained contents; the claim fails for `n ≤ 0` (Python slicing returns
the whole list for `n = 0` and drops a prefix for negative `n`). -/
theorem C5_recent_context (mem : ChatMemory) :
    get_recent_context mem none = mem.conversation_buffer ∧
    ∀ n : Int, 1 ≤ n →
      get_recent_context mem (some n) = listTakeRight n.toNat mem.conversation_buffer := by
  constructor
  · show pySliceLast ((mem.conversation_buffer.length : Nat) : Int) mem.conversation_buffer =
      mem.conversation_buffer
    exact pySliceLast_length_self _
  · intro n hn
    have h1 : ((n.toNat : Nat) : Int) = n := Int.toNat_of_nonneg (by omega)
    have h2 : 0 < n.toNat := by omega
    show pySliceLast n mem.conversation_buffer = _
    have h3 : pySliceLast n mem.conversation_buffer =
        pySliceLast ((n.toNat : Nat) : Int) mem.conversation_buffer := by rw [h1]
    rw [h3, pySliceLast_coe_nat h2]

/-- C5 witness: `recent(1)` on a concrete two-turn buffer is its last
turn. -/
theorem C5_recent_context_witness :
    (1 : Int) ≤ 1 ∧
    get_recent_context (addTurns (mkChatMemory 5 100) [("a", "b", "t1"), ("c", "d", "t2")])
        (some 1) =
      listTakeRight (1 : Int).toNat
        (addTurns (mkChatMemory 5 100) [("a", "b", "t1"), ("c", "d", "t2")]).conversation_buffer :=
  ⟨by decide,
    (C5_recent_context (addTurns (mkChatMemory 5 100) [("a", "b", "t1"), ("c", "d", "t2")])).2
      1 (by decide)⟩

theorem list_contains_iff (l : List String) (a : String) :
    l.contains a = true ↔ a ∈ l := by
  rw [show l.contains a = List.elem a l from rfl]
  exact List.elem_iff

/-- Merging into the set model reaches exactly the old and the new
elements: duplicates are no-ops. -/
theorem mem_setUpdate (new : List String) :
    ∀ (s : List String) (w : String), w ∈ setUpdate s new ↔ w ∈ s ∨ w ∈ new := by
  induction new with
  | nil => intro s w; simp [setUpdate]
  | cons x xs ih =>
    intro s w
    show w ∈ setUpdate (if s.contains x then s else s ++ [x]) xs ↔ _
    by_cases hc : s.contains x = true
    · rw [if_pos hc, ih]
      have hx : x ∈ s := (list_contains_iff s x).mp hc
      simp only [List.mem_cons]
      constructor
      · rintro (h | h)
        · exact Or.inl h
        · exact Or.inr (Or.inr h)
      · rintro (h | h | h)
        · exact Or.inl h
        · exact Or.inl (h ▸ hx)
        · exact Or.inr h
    · rw [if_neg hc, ih]
      simp only [List.mem_append, List.mem_singleton, List.mem_cons]
      tauto

/-- C7 counterexample: `observe("the.", "")` tracks the keyword `"the"`,
which IS a stop word — the code tests length and stop-word membership on the
raw token BEFORE stripping punctuation, while the claim's
strip-first pipeline (`claimedExtract`) would discard it. -/
theorem C7_counterexample_stop_word_kept :
    (update_topic_context (mkContextManager (mkChatMemory 5 100)) "the." "").topic_keywords =
      ["the"] ∧
    "the" ∈ stop_words ∧
    claimedExtract ("the." ++ " " ++ "") = [] := by
  exact ⟨by decide, by decide, by decide⟩

/-- C7 (amended): `update_topic_context` concatenates the two texts with a
space, lowercases, splits on whitespace, discards the RAW tokens of length
≤ 3 or in the stop list (tested before any stripping), strips the
punctuation characters from each surviving token, keeps the first 5, and
merges them into the keyword set with duplicates as no-ops (here below the
trim threshold, so the merge is the whole effect); stripped keywords may
well be stop words or short. -/
theorem C7_keyword_extraction (cm : ContextManager) (u b : String)
    (h : (setUpdate cm.topic_keywords (extract_keywords (u ++ " " ++ b))).length ≤ 20) :
    (update_topic_context cm u b).topic_keywords =
      setUpdate cm.topic_keywords (extract_keywords (u ++ " " ++ b)) ∧
    extract_keywords (u ++ " " ++ b) =
      (((pySplit (pyLower (u ++ " " ++ b))).filter
          (fun w => w.length > 3 && !(stop_words.contains w))).map pyStrip).take 5 ∧
    ∀ w : String,
      w ∈ (update_topic_context cm u b).topic_keywords ↔
        w ∈ cm.topic_keywords ∨ w ∈ extract_keywords (u ++ " " ++ b) := by
  have hnotrim : (update_topic_context cm u b).topic_keywords =
      setUpdate cm.topic_keywords (extract_keywords (u ++ " " ++ b)) := by
    show (if (setUpdate cm.topic_keywords (extract_keywords (u ++ " " ++ b))).length > 20
        then listTakeRight 15 (setUpdate cm.topic_keywords (extract_keywords (u ++ " " ++ b)))
        else setUpdate cm.topic_keywords (extract_keywords (u ++ " " ++ b))) =
      setUpdate cm.topic_keywords (extract_keywords (u ++ " " ++ b))
    rw [if_neg (by omega)]
  refine ⟨hnotrim, rfl, ?_⟩
  intro w
  rw [hnotrim, mem_setUpdate]

/-- C7 witness: a concrete observation on a fresh tracker. -/
theorem C7_keyword_extraction_witness :
    (setUpdate (mkContextManager (mkChatMemory 5 100)).topic_keywords
        (extract_keywords ("alpha beta" ++ " " ++ "gamma"))).length ≤ 20 ∧
    (update_topic_context (mkContextManager (mkChatMemory 5 100)) "alpha beta" "gamma").topic_keywords =
      setUpdate (mkContextManager (mkChatMemory 5 100)).topic_keywords
        (extract_keywords ("alpha beta" ++ " " ++ "gamma")) :=
  ⟨by decide,
    (C7_keyword_extraction (mkContextManager (mkChatMemory 5 100)) "alpha beta" "gamma"
      (by decide)).1⟩

/-! ### Word structure of `pySplit` and of single-space joins -/

/-- Every word the splitter produces is non-empty and whitespace-free. -/
theorem splitWSAux_wordlike :
    ∀ (cs cur : List Char), (∀ c ∈ cur, c.isWhitespace = false) →
      ∀ v ∈ splitWSAux cs cur, wordlike v := by
  intro cs
  induction cs with
  | nil =>
    intro cur hcur v hv
    simp only [splitWSAux] at hv
    by_cases h : cur.isEmpty
    · rw [if_pos h] at hv
      exact absurd hv (List.not_mem_nil v)
    · rw [if_neg h] at hv
      rcases List.mem_singleton.mp hv with rfl
      refine ⟨?_, ?_⟩
      · rw [Ne, List.reverse_eq_nil_iff]
        exact List.isEmpty_eq_false.mp (Bool.of_not_eq_true h)
      · intro c hc
        exact hcur c (List.mem_reverse.mp hc)
  | cons c cs ih =>
    intro cur hcur v hv
    simp only [splitWSAux] at hv
    by_cases hws : c.isWhitespace
    · rw [if_pos hws] at hv
      by_cases h : cur.isEmpty
      · rw [if_pos h] at hv
        exact ih [] (by intro x hx; cases hx) v hv
      · rw [if_neg h] at hv
        rcases List.mem_cons.mp hv with rfl | hv'
        · refine ⟨?_, ?_⟩
          · rw [Ne, List.reverse_eq_nil_iff]
            exact List.isEmpty_eq_false.mp (Bool.of_not_eq_true h)
          · intro d hd
            exact hcur d (List.mem_reverse.mp hd)
        · exact ih [] (by intro x hx; cases hx) v hv'
    · rw [if_neg hws] at hv
      refine ih (c :: cur) ?_ v hv
      intro d hd
      rcases List.mem_cons.mp hd with rfl | hd'
      · exact Bool.of_not_eq_true hws
      · exact hcur d hd'

/-- Feeding a whitespace-free block into the splitter just extends the
current word. -/
theorem splitWSAux_word_prefix :
    ∀ (w : List Char), (∀ c ∈ w, c.isWhitespace = false) →
      ∀ (cs cur : List Char), splitWSAux (w ++ cs) cur = splitWSAux cs (w.reverse ++ cur) := by
  intro w
  induction w with
  | nil => intro _ cs cur; rfl
  | cons c w ih =>
    intro h cs cur
    have hc : c.isWhitespace = false := h c (List.mem_cons_self c w)
    show splitWSAux (c :: (w ++ cs)) cur = _
    simp only [splitWSAux, hc, Bool.false_eq_true, if_false]
    rw [ih (fun d hd => h d (List.mem_cons_of_mem _ hd)) cs (c :: cur),
      List.reverse_cons, List.append_assoc]
    rfl

/-- Splitting a space-prefixed join of wordlike words followed by a
whitespace-free non-empty tail, with a non-empty word already accumulated,
yields one word per join entry plus the accumulated one. -/
theorem splitWSAux_spaced :
    ∀ (ws : List (List Char)), (∀ v ∈ ws, wordlike v) →
      ∀ (tail : List Char), tail ≠ [] → (∀ c ∈ tail, c.isWhitespace = false) →
      ∀ (cur : List Char), cur ≠ [] → (∀ c ∈ cur, c.isWhitespace = false) →
        (splitWSAux (spaced ws ++ tail) cur).length = ws.length + 1 := by
  intro ws
  induction ws with
  | nil =>
    intro _ tail htail htailws cur hcur hcurws
    rw [spaced, List.nil_append,
      show splitWSAux tail cur = splitWSAux (tail ++ []) cur by rw [List.append_nil],
      splitWSAux_word_prefix tail htailws [] cur]
    simp only [splitWSAux]
    rw [if_neg ?_]
    · rfl
    · rw [List.isEmpty_iff]
      intro hcontr
      rcases List.append_eq_nil.mp hcontr with ⟨h1, h2⟩
      exact hcur h2
  | cons v ws ih =>
    intro hws tail htail htailws cur hcur hcurws
    obtain ⟨hv1, hv2⟩ := hws v (List.mem_cons_self v ws)
    have hshape : spaced (v :: ws) ++ tail = ' ' :: (v ++ (spaced ws ++ tail)) := by
      rw [spaced]
      simp [List.append_assoc]
    rw [hshape]
    show (splitWSAux (' ' :: (v ++ (spaced ws ++ tail))) cur).length = _
    simp only [splitWSAux]
    rw [if_pos (by rfl), if_neg (by rw [List.isEmpty_iff]; exact hcur),
      splitWSAux_word_prefix v hv2 _ [], List.append_nil, List.length_cons,
      ih (fun u hu => hws u (List.mem_cons_of_mem _ hu)) tail htail htailws v.reverse
        (by rw [Ne, List.reverse_eq_nil_iff]; exact hv1)
        (fun c hc => hv2 c (List.mem_reverse.mp hc)),
      List.length_cons]

/-- Character stream of a non-empty single-space join: head word, then each
further word preceded by one space. -/
theorem pyJoin_toList_spaced :
    ∀ (ws : List (List Char)) (w : List Char),
      (pyJoin " " ((w :: ws).map String.mk)).toList = w ++ spaced ws := by
  intro ws
  induction ws with
  | nil => intro w; simp [pyJoin, spaced]
  | cons v vs ih =>
    intro w
    show (String.mk w ++ " " ++ pyJoin " " ((v :: vs).map String.mk)).toList = _
    rw [show (String.mk w ++ " " ++ pyJoin " " ((v :: vs).map String.mk)).toList =
        (String.mk w ++ " ").toList ++ (pyJoin " " ((v :: vs).map String.mk)).toList from
        String.data_append _ _,
      ih v,
      show (String.mk w ++ " ").toList = w ++ [' '] from String.data_append _ _]
    rw [spaced, List.append_assoc]
    rfl

/-- A truncated message has exactly `limit` whitespace-delimited words: the
ellipsis marker glues onto the last kept word. -/
theorem truncate_message_word_count (limit : Nat) (msg : String)
    (hlim : 1 ≤ limit) (hgt : (pySplit msg).length > limit) :
    (pySplit (truncate_message limit msg)).length = limit := by
  have htr : truncate_message limit msg =
      pyJoin " " ((pySplit msg).take limit) ++ "..." := by
    unfold truncate_message
    rw [if_pos hgt]
  have hvslen : (splitWSAux msg.toList []).length > limit := by
    have h := hgt
    rw [pySplit, List.length_map] at h
    exact h
  have htake : (pySplit msg).take limit =
      ((splitWSAux msg.toList []).take limit).map String.mk := by
    rw [pySplit, List.map_take]
  have hlen : ((splitWSAux msg.toList []).take limit).length = limit := by
    rw [List.length_take]
    omega
  have hword : ∀ v ∈ (splitWSAux msg.toList []).take limit, wordlike v := by
    intro v hv
    exact splitWSAux_wordlike msg.toList [] (by intro x hx; cases hx) v
      (List.take_subset _ _ hv)
  cases hts : (splitWSAux msg.toList []).take limit with
  | nil => rw [hts, List.length_nil] at hlen; omega
  | cons w rest =>
    rw [hts] at htake hword hlen
    obtain ⟨hw1, hw2⟩ := hword w (List.mem_cons_self w rest)
    rw [htr, htake]
    show ((splitWSAux (pyJoin " " ((w :: rest).map String.mk) ++ "...").toList []).map
      String.mk).length = limit
    rw [List.length_map,
      show (pyJoin " " ((w :: rest).map String.mk) ++ "...").toList =
        (pyJoin " " ((w :: rest).map String.mk)).toList ++ ['.', '.', '.'] from
        String.data_append _ _,
      pyJoin_toList_spaced rest w, List.append_assoc,
      splitWSAux_word_prefix w hw2 _ [], List.append_nil,
      splitWSAux_spaced rest (fun u hu => hword u (List.mem_cons_of_mem _ hu))
        ['.', '.', '.'] (by decide) (by decide) w.reverse
        (by rw [Ne, List.reverse_eq_nil_iff]; exact hw1)
        (fun c hc => hw2 c (List.mem_reverse.mp hc))]
    rw [List.length_cons] at hlen
    omega

/-- C4: when a text exceeds the word limit, `add_turn`'s stored version is
its first `limit` whitespace words rejoined with single spaces plus the
`"..."` marker — applied at insertion time, independently to each text — and
that stored version has exactly `limit` words; instantiated by the witness
at the spec's 150-word/limit-100 example. -/
theorem C4_truncation (limit : Nat) (msg : String) (hlim : 1 ≤ limit)
    (hgt : (pySplit msg).length > limit) :
    truncate_message limit msg = pyJoin " " ((pySplit msg).take limit) ++ "..." ∧
    (pySplit (truncate_message limit msg)).length = limit ∧
    (∀ (mem : ChatMemory) (u b ts : String),
      (add_turn mem u b ts).conversation_buffer =
        dequeAppend mem.window_size mem.conversation_buffer
          ⟨some (mem.total_turns + 1), truncate_message mem.max_tokens_per_turn u,
           truncate_message mem.max_tokens_per_turn b, some ts⟩) := by
  refine ⟨?_, truncate_message_word_count limit msg hlim hgt, fun mem u b ts => rfl⟩
  unfold truncate_message
  rw [if_pos hgt]

/-- C4 witness: a 150-word message truncated at the default limit 100. -/
theorem C4_truncation_witness :
    1 ≤ 100 ∧
    (pySplit (pyJoin " " (List.replicate 150 "w"))).length > 100 ∧
    truncate_message 100 (pyJoin " " (List.replicate 150 "w")) =
      pyJoin " " ((pySplit (pyJoin " " (List.replicate 150 "w"))).take 100) ++ "..." ∧
    (pySplit (truncate_message 100 (pyJoin " " (List.replicate 150 "w")))).length = 100 :=
  ⟨by decide, by decide,
    (C4_truncation 100 (pyJoin " " (List.replicate 150 "w")) (by decide) (by decide)).1,
    (C4_truncation 100 (pyJoin " " (List.replicate 150 "w")) (by decide) (by decide)).2.1⟩

/-- C10: a message whose word count is within the limit is stored verbatim —
original whitespace, no marker — and only a strictly greater word count
replaces it by the first `limit` words rejoined with single spaces with the
marker appended directly (no space before it). -/
theorem C10_no_truncation_at_boundary (limit : Nat) (msg : String) :
    ((pySplit msg).length ≤ limit → truncate_message limit msg = msg) ∧
    ((pySplit msg).length > limit →
      truncate_message limit msg = pyJoin " " ((pySplit msg).take limit) ++ "...") := by
  constructor
  · intro h
    unfold truncate_message
    rw [if_neg (by omega)]
  · intro h
    unfold truncate_message
    rw [if_pos h]

/-- C10 witness: exactly 100 words at limit 100 stay verbatim, and so does a
short message with interior double spaces. -/
theorem C10_no_truncation_at_boundary_witness :
    ((pySplit (pyJoin " " (List.replicate 100 "w"))).length ≤ 100 ∧
      truncate_message 100 (pyJoin " " (List.replicate 100 "w")) =
        pyJoin " " (List.replicate 100 "w")) ∧
    ((pySplit "a  b").length ≤ 100 ∧ truncate_message 100 "a  b" = "a  b") :=
  ⟨⟨by decide,
      (C10_no_truncation_at_boundary 100 (pyJoin " " (List.replicate 100 "w"))).1 (by decide)⟩,
    ⟨by decide, (C10_no_truncation_at_boundary 100 "a  b").1 (by decide)⟩⟩

/-- After any `update_topic_context` call the keyword set has at most 20
elements: either no trim fired and the merged size was already ≤ 20, or the
trim cut the set to at most 15.  This size bound does not depend on which 15
elements the trim keeps, so it is insensitive to the unspecified iteration
order of the underlying Python set. -/
theorem update_topic_context_size_le (cm : ContextManager) (u b : String) :
    (update_topic_context cm u b).topic_keywords.length ≤ 20 := by
  show (if (setUpdate cm.topic_keywords (extract_keywords (u ++ " " ++ b))).length > 20
      then listTakeRight 15 (setUpdate cm.topic_keywords (extract_keywords (u ++ " " ++ b)))
      else setUpdate cm.topic_keywords (extract_keywords (u ++ " " ++ b))).length ≤ 20
  by_cases h :
    (setUpdate cm.topic_keywords (extract_keywords (u ++ " " ++ b))).length > 20
  · rw [if_pos h, listTakeRight_length]
    have := Nat.min_le_left 15
      (setUpdate cm.topic_keywords (extract_keywords (u ++ " " ++ b))).length
    omega
  · rw [if_neg h]
    omega

end AiChatBot
